import Mathlib

/-!
Verification of the pyscheme front end (tokeniser + recursive-descent parser).

The definitions below are a shallow embedding of
`src/scheme_interpreter/tokeniser.py` and `src/scheme_interpreter/parser.py`.
Strings are modelled as `List Char`; a token is a `List Char`.
The host language's numeric conversion (Python `float`) is modelled by
`pyFloatParse` below, with exact rational semantics (no binary rounding or
overflow) over the ASCII fragment of Python's accepted float syntax.
-/

/-- Token type: the Python code works with plain strings as tokens. -/
abbrev Tok := List Char

/-- The whitespace characters recognised by Python's `str.split` / `str.strip`
(ASCII fragment): space, tab, newline, carriage return, vertical tab, form feed. -/
def isWs (c : Char) : Bool :=
  c = ' ' || c = '\t' || c = '\n' || c = '\r' || c = '\x0b' || c = '\x0c'

/-- Model of Python `str.split()` with no separator: split on runs of
whitespace, discarding empty fragments. -/
def splitWs : List Char → List (List Char)
  | [] => []
  | c :: cs =>
    if isWs c then splitWs cs
    else
      match cs with
      | [] => [[c]]
      | d :: cs' =>
        if isWs d then [c] :: splitWs (d :: cs')
        else
          match splitWs (d :: cs') with
          | t :: ts => (c :: t) :: ts
          | [] => [[c]]

/-- Model of Python `str.strip()`: drop leading and trailing whitespace. -/
def strip (l : List Char) : List Char :=
  ((l.dropWhile isWs).reverse.dropWhile isWs).reverse

/-- Model of Python `str.replace(target, rep)` for a single-character target. -/
def replaceChar (target : Char) (rep : List Char) : List Char → List Char
  | [] => []
  | c :: cs => (if c = target then rep else [c]) ++ replaceChar target rep cs

/-- Embedding of `tokeniser.py` line 10: the two `.replace` calls of
`regular_tokeniser`, surrounding every parenthesis with spaces. -/
def expandParens (l : List Char) : List Char :=
  replaceChar ')' [' ', ')', ' '] (replaceChar '(' [' ', '(', ' '] l)

/-- Fused single pass equal to `expandParens` (proved in `expandParens_eq`);
used only to structure proofs. -/
def expandFused : List Char → List Char
  | [] => []
  | c :: cs =>
    (if c = '(' then [' ', '(', ' ']
     else if c = ')' then [' ', ')', ' ']
     else [c]) ++ expandFused cs

/-- Embedding of `regular_tokeniser` (tokeniser.py lines 10-11):
`input.replace("(", " ( ").replace(")", " ) ").strip().split()`. -/
def regular_tokeniser (input : List Char) : List (List Char) :=
  splitWs (strip (expandParens input))

/-- Fuelled embedding of `tokenise` (tokeniser.py lines 9-37).  The body of
`quoted_pair_tokeniser` (lines 13-27) is inlined so that the recursive call
`tokenise(post_quoted_substring)` is fuelled; `input[:first_quote]`,
`input[first_quote:second_quote+1]` and `input[second_quote+1:]` are expressed
with `takeWhile`/`dropWhile` at the first two occurrences of the quote
character.  The fuel only bounds the recursion depth; `tokenise` below always
supplies enough (`tokeniseF_congr`). -/
def tokeniseF : Nat → List Char → List (List Char)
  | 0, _ => []
  | fuel + 1, input =>
    if input = [] then []
    else if ¬ input.contains '"' then regular_tokeniser input
    else if input.count '"' % 2 ≠ 0 then regular_tokeniser input
    else
      match input.dropWhile (fun c => c != '"') with
      | [] => []
      | q1 :: rest1 =>
        match rest1.dropWhile (fun c => c != '"') with
        | [] => []
        | q2 :: post =>
          let pre := input.takeWhile (fun c => c != '"')
          let quoted := q1 :: (rest1.takeWhile (fun c => c != '"') ++ [q2])
          (if strip pre ≠ [] then regular_tokeniser pre else [])
            ++ quoted :: (if strip post ≠ [] then tokeniseF fuel post else [])

/-- Embedding of `tokenise` (tokeniser.py lines 9-37): the recursion always
terminates because the recursive call is on the text after the second quote,
which is at least two characters shorter, so `input.length` is enough fuel. -/
def tokenise (input : List Char) : List (List Char) :=
  tokeniseF input.length input

/-- Python `" ".join(tokens)`: used to state the idempotence property. -/
def joinTokens : List (List Char) → List Char
  | [] => []
  | [t] => t
  | t :: ts => t ++ ' ' :: joinTokens ts

/-- Value of a Python float, with exact (unrounded) rational semantics for
finite values. -/
inductive PyFloat where
  | finite (q : Rat)
  | inf (neg : Bool)
  | nan
deriving DecidableEq

/-- ASCII decimal digit test. -/
def isDigit (c : Char) : Bool := '0' ≤ c && c ≤ '9'

/-- ASCII lower-casing, for Python's case-insensitive `inf`/`nan` forms. -/
def toLowerAscii (c : Char) : Char :=
  if 'A' ≤ c && c ≤ 'Z' then Char.ofNat (c.toNat + 32) else c

/-- Reads a maximal Python `digitpart` (digits with single underscores strictly
between digits) starting at a digit already known to be present; returns the
digits read (underscores removed) and the unread remainder. -/
def digitpartAux : List Char → (List Char × List Char)
  | [] => ([], [])
  | c :: cs =>
    if isDigit c then
      let (ds, r) := digitpartAux cs
      (c :: ds, r)
    else if c = '_' then
      match cs with
      | d :: cs' =>
        if isDigit d then
          let (ds, r) := digitpartAux cs'
          (d :: ds, r)
        else ([], c :: cs)
      | [] => ([], [c])
    else ([], c :: cs)

/-- Reads a Python `digitpart`; fails if the input does not start with a digit. -/
def digitpart (l : List Char) : Option (List Char × List Char) :=
  match l with
  | c :: _ => if isDigit c then some (digitpartAux l) else none
  | [] => none

/-- Numeric value of a digit string. -/
def digitsToNat (ds : List Char) : Nat :=
  ds.foldl (fun a c => 10 * a + (c.toNat - 48)) 0

/-- Exact rational value of a decimal literal with integer digits, fraction
digits and a decimal exponent. -/
def decValue (neg : Bool) (intDs fracDs : List Char) (ex : Int) : Rat :=
  let m : Rat := (digitsToNat intDs * 10 ^ fracDs.length + digitsToNat fracDs : Nat)
  let v := m * (10 : Rat) ^ (ex - fracDs.length)
  if neg then -v else v

/-- Parses the decimal-number part of Python float syntax:
`[digitpart] ["." [digitpart]] [("e"|"E") ["+"|"-"] digitpart]`, requiring at
least one digit in the mantissa and no trailing characters. -/
def parseDecimal (neg : Bool) (s : List Char) : Option PyFloat :=
  let (intDs, rest) :=
    match digitpart s with
    | some (ds, r) => (ds, r)
    | none => (([] : List Char), s)
  let (fracDs, rest2) :=
    match rest with
    | '.' :: r =>
      (match digitpart r with
       | some (ds, r2) => (ds, r2)
       | none => (([] : List Char), r))
    | _ => (([] : List Char), rest)
  if intDs = [] ∧ fracDs = [] then none
  else
    match rest2 with
    | [] => some (.finite (decValue neg intDs fracDs 0))
    | e :: r3 =>
      if e = 'e' ∨ e = 'E' then
        let (esign, r4) :=
          match r3 with
          | '+' :: r5 => ((1 : Int), r5)
          | '-' :: r5 => ((-1 : Int), r5)
          | r5 => ((1 : Int), r5)
        match digitpart r4 with
        | some (eds, []) => some (.finite (decValue neg intDs fracDs (esign * digitsToNat eds)))
        | _ => none
      else none

/-- Model of the host numeric conversion Python `float(str)` (ASCII fragment):
strip whitespace, optional sign, then case-insensitive `inf`/`infinity`/`nan`
or a decimal literal parsed in full.  Returns `none` exactly when Python's
`float` raises `ValueError`. -/
def pyFloatParse (s : List Char) : Option PyFloat :=
  let t := strip s
  match t with
  | [] => none
  | _ =>
    let (neg, rest) :=
      match t with
      | '+' :: r => (false, r)
      | '-' :: r => (true, r)
      | r => (false, r)
    let low := rest.map toLowerAscii
    if low = ['i', 'n', 'f'] ∨ low = ['i', 'n', 'f', 'i', 'n', 'i', 't', 'y'] then
      some (.inf neg)
    else if low = ['n', 'a', 'n'] then some .nan
    else parseDecimal neg rest

/-- Embedding of `is_number` (parser.py lines 19-24): `float(token)` succeeds. -/
def is_number (token : Tok) : Bool := (pyFloatParse token).isSome

/-- Total stand-in for Python `float(token)`; in the parser it is only applied
under an `is_number` guard, so the `.nan` default is never observable. -/
def pyFloat (token : Tok) : PyFloat := (pyFloatParse token).getD .nan

/-- AST node, embedding the tagged dictionaries of parser.py lines 1-10. -/
inductive Node where
  | number (value : PyFloat)
  | symbol (name : Tok)
  | list (elements : List Node)

/-- Embedding of `number_node` (parser.py lines 1-2). -/
def number_node (value : PyFloat) : Node := Node.number value

/-- Embedding of `symbol_node` (parser.py lines 5-6). -/
def symbol_node (name : Tok) : Node := Node.symbol name

/-- Embedding of `list_node` (parser.py lines 9-10). -/
def list_node (elements : List Node) : Node := Node.list elements

/-- The distinct `ParseError` raise sites of parser.py, one constructor per
message: "Unexpected end of input" (parse_expression and parse_number),
"Expected number, got {token}", "Unexpected end of the input" (parse_symbol),
"Expected opening parenthesis", "Missing closing parenthesis". -/
inductive ParseError where
  | unexpectedEndOfInput
  | expectedNumber (token : Tok)
  | unexpectedEndOfTheInput
  | expectedOpenParen
  | missingClosingParen
deriving DecidableEq

/-- Embedding of `parse_number` (parser.py lines 27-42). -/
def parse_number (tokens : List Tok) (position : Nat) : Except ParseError (Node × Nat) :=
  if tokens.length ≤ position then .error .unexpectedEndOfInput
  else
    let token := tokens.getD position []
    if ¬ is_number token then .error (.expectedNumber token)
    else .ok (number_node (pyFloat token), position + 1)

/-- Embedding of `parse_symbol` (parser.py lines 45-56). -/
def parse_symbol (tokens : List Tok) (position : Nat) : Except ParseError (Node × Nat) :=
  if tokens.length ≤ position then .error .unexpectedEndOfTheInput
  else
    let token := tokens.getD position []
    .ok (symbol_node token, position + 1)

/-- Fuelled embedding of the mutually recursive pair `parse_expression`
(parser.py lines 89-107) and `parse_list` (parser.py lines 59-86), as one
structural recursion on fuel returning the triple (parse_expression,
parse_list, the while-loop of parse_list).  `none` means the fuel ran out;
`parseStep_isSome` below shows the wrappers never hit it.  The loop component
takes the accumulated `elements` and models the `while` loop at parser.py
lines 70-75 together with the closing-parenthesis check at lines 78-86. -/
def parseStep : Nat →
    (List Tok → Nat → Option (Except ParseError (Node × Nat)))
    × (List Tok → Nat → Option (Except ParseError (Node × Nat)))
    × (List Tok → Nat → List Node → Option (Except ParseError (List Node × Nat)))
  | 0 => (fun _ _ => none, fun _ _ => none, fun _ _ _ => none)
  | fuel + 1 =>
    let pe := (parseStep fuel).1
    let pl := (parseStep fuel).2.1
    let ploop := (parseStep fuel).2.2
    ( fun tokens position =>
        if tokens.length ≤ position then some (.error .unexpectedEndOfInput)
        else
          let token := tokens.getD position []
          if token = ['('] then pl tokens position
          else if is_number token then some (parse_number tokens position)
          else some (parse_symbol tokens position),
      fun tokens position =>
        if tokens.length ≤ position ∨ tokens.getD position [] ≠ ['('] then
          some (.error .expectedOpenParen)
        else
          match ploop tokens (position + 1) [] with
          | none => none
          | some (.error e) => some (.error e)
          | some (.ok (elements, position2)) => some (.ok (list_node elements, position2)),
      fun tokens position elements =>
        match tokens[position]? with
        | none => some (.error .missingClosingParen)
        | some token =>
          if token = [')'] then some (.ok (elements, position + 1))
          else
            match pe tokens position with
            | none => none
            | some (.error e) => some (.error e)
            | some (.ok (node, position2)) => ploop tokens position2 (elements ++ [node]) )

/-- Fuelled `parse_expression`. -/
def parse_expressionF (fuel : Nat) (tokens : List Tok) (position : Nat) :
    Option (Except ParseError (Node × Nat)) :=
  (parseStep fuel).1 tokens position

/-- Fuelled `parse_list`. -/
def parse_listF (fuel : Nat) (tokens : List Tok) (position : Nat) :
    Option (Except ParseError (Node × Nat)) :=
  (parseStep fuel).2.1 tokens position

/-- Fuelled while-loop of `parse_list`. -/
def parse_loopF (fuel : Nat) (tokens : List Tok) (position : Nat) (elements : List Node) :
    Option (Except ParseError (List Node × Nat)) :=
  (parseStep fuel).2.2 tokens position elements

/-- Embedding of `parse_expression` (parser.py lines 89-107).  The fuel
`3 * tokens.length + 1` is always sufficient (`parse_expressionF_isSome`), so
the `getD` default is never observable. -/
def parse_expression (tokens : List Tok) (position : Nat) : Except ParseError (Node × Nat) :=
  (parse_expressionF (3 * tokens.length + 1) tokens position).getD (.error .unexpectedEndOfInput)

/-- Embedding of `parse_list` (parser.py lines 59-86). -/
def parse_list (tokens : List Tok) (position : Nat) : Except ParseError (Node × Nat) :=
  (parse_listF (3 * tokens.length + 1) tokens position).getD (.error .expectedOpenParen)

/-- Tokens that are optionally-signed decimal literals (optional sign, digits,
at most one decimal point, at least one digit); stated from the words of the
implicit claim about `is_number`, for comparison with the code's test. -/
def optSignedDecimal (t : Tok) : Bool :=
  let body :=
    match t with
    | '+' :: r => r
    | '-' :: r => r
    | r => r
  body.all (fun c => isDigit c || c = '.') && body.any isDigit && body.count '.' ≤ 1

/-- Grammar of a single complete top-level expression over a token sequence
(`Expr true`), and of a sequence of zero or more complete expressions
(`Expr false`): an atom is any token other than the parenthesis markers, and a
list is `(`, a sequence of expressions, `)`.  This is the hypothesis of the
round-trip claim: the tokenisation forms one complete top-level expression. -/
inductive Expr : Bool → List Tok → Prop where
  | atom (t : Tok) : t ≠ ['('] → t ≠ [')'] → Expr true [t]
  | list (ts : List Tok) : Expr false ts → Expr true (['('] :: ts ++ [[')']])
  | nil : Expr false []
  | cons (ts us : List Tok) : Expr true ts → Expr false us → Expr false (ts ++ us)

/-! ### Lemmas about `splitWs` -/

theorem splitWs_ws_cons {c : Char} (l : List Char) (h : isWs c = true) :
    splitWs (c :: l) = splitWs l := by
  cases l with
  | nil => simp [splitWs, h]
  | cons d l' => rw [splitWs.eq_3]; simp [h]

theorem splitWs_eq_nil_iff {l : List Char} :
    splitWs l = [] ↔ ∀ c ∈ l, isWs c = true := by
  induction l with
  | nil => simp [splitWs]
  | cons c cs ih =>
    by_cases h : isWs c = true
    · rw [splitWs_ws_cons cs h]
      simp [h, ih]
    · replace h : isWs c = false := by simpa using h
      cases cs with
      | nil => simp [splitWs, h]
      | cons d cs' =>
        rw [splitWs.eq_3]
        simp only [h, Bool.false_eq_true, if_false]
        by_cases hd : isWs d = true
        · simp [hd, h]
        · replace hd : isWs d = false := by simpa using hd
          simp only [hd, Bool.false_eq_true, if_false]
          rcases hsp : splitWs (d :: cs') with _ | ⟨t, ts⟩ <;> simp [h]

theorem splitWs_all_ws {l : List Char} (h : ∀ c ∈ l, isWs c = true) :
    splitWs l = [] := splitWs_eq_nil_iff.mpr h

theorem splitWs_ne_nil_of_head {c : Char} {cs : List Char} (h : isWs c = false) :
    splitWs (c :: cs) ≠ [] := by
  intro hx
  have := splitWs_eq_nil_iff.mp hx c (by simp)
  simp [this] at h

theorem splitWs_token_nil {t : List Char} (hne : t ≠ [])
    (hws : ∀ c ∈ t, isWs c = false) : splitWs t = [t] := by
  induction t with
  | nil => exact absurd rfl hne
  | cons c cs ih =>
    have hc : isWs c = false := hws c (by simp)
    cases cs with
    | nil => simp [splitWs, hc]
    | cons d cs' =>
      have hd : isWs d = false := hws d (by simp)
      have ihd := ih (by simp) (fun x hx => hws x (by simp [hx]))
      rw [splitWs.eq_3]
      simp [hc, hd, ihd]

theorem splitWs_token_ws {t : List Char} {d : Char} (rest : List Char) (hne : t ≠ [])
    (hws : ∀ c ∈ t, isWs c = false) (hd : isWs d = true) :
    splitWs (t ++ d :: rest) = t :: splitWs rest := by
  induction t with
  | nil => exact absurd rfl hne
  | cons c cs ih =>
    have hc : isWs c = false := hws c (by simp)
    cases cs with
    | nil =>
      rw [List.singleton_append, splitWs.eq_3]
      simp [hc, hd, splitWs_ws_cons rest hd]
    | cons e cs' =>
      have he : isWs e = false := hws e (by simp)
      have ihe := ih (by simp) (fun x hx => hws x (by simp [hx]))
      simp only [List.cons_append] at ihe ⊢
      rw [splitWs.eq_3]
      simp only [hc, Bool.false_eq_true, if_false, he, ihe]

theorem splitWs_append_allws {w : List Char} (l : List Char)
    (hw : ∀ c ∈ w, isWs c = true) : splitWs (l ++ w) = splitWs l := by
  induction l with
  | nil => simpa using splitWs_all_ws hw
  | cons c cs ih =>
    by_cases hc : isWs c = true
    · rw [List.cons_append, splitWs_ws_cons _ hc, splitWs_ws_cons _ hc, ih]
    · replace hc : isWs c = false := by simpa using hc
      cases cs with
      | nil =>
        cases w with
        | nil => rfl
        | cons d w' =>
          have hd : isWs d = true := hw d (by simp)
          have hw' : ∀ x ∈ w', isWs x = true := fun x hx => hw x (by simp [hx])
          rw [List.singleton_append, splitWs.eq_3]
          simp [hc, hd, splitWs_ws_cons w' hd, splitWs_all_ws hw', splitWs]
      | cons e cs' =>
        have h3 : splitWs ((e :: cs') ++ w) = splitWs (e :: cs') := ih
        by_cases he : isWs e = true
        · simp only [List.cons_append] at h3 ⊢
          rw [splitWs.eq_3, splitWs.eq_3]
          simp only [hc, Bool.false_eq_true, if_false, he, if_true, h3]
        · replace he : isWs e = false := by simpa using he
          rcases hsp : splitWs (e :: cs') with _ | ⟨t, ts⟩
          · exact absurd hsp (splitWs_ne_nil_of_head he)
          · simp only [List.cons_append] at h3 ⊢
            rw [splitWs.eq_3, splitWs.eq_3]
            simp only [hc, Bool.false_eq_true, if_false, he, h3, hsp]

theorem splitWs_mem {l : List Char} : ∀ {t : List Char}, t ∈ splitWs l →
    t ≠ [] ∧ ∀ c ∈ t, isWs c = false ∧ c ∈ l := by
  induction l with
  | nil => intro t ht; simp [splitWs] at ht
  | cons c cs ih =>
    intro t ht
    by_cases hc : isWs c = true
    · rw [splitWs_ws_cons cs hc] at ht
      rcases ih ht with ⟨h1, h2⟩
      exact ⟨h1, fun x hx => ⟨(h2 x hx).1, by simp [(h2 x hx).2]⟩⟩
    · replace hc : isWs c = false := by simpa using hc
      cases cs with
      | nil =>
        simp only [splitWs, hc, Bool.false_eq_true, if_false, List.mem_singleton] at ht
        subst ht
        exact ⟨by simp, by simp [hc]⟩
      | cons d cs' =>
        rw [splitWs.eq_3] at ht
        simp only [hc, Bool.false_eq_true, if_false] at ht
        by_cases hd : isWs d = true
        · simp only [hd, if_true, List.mem_cons] at ht
          rcases ht with ht | ht
          · subst ht
            exact ⟨by simp, by simp [hc]⟩
          · rcases ih ht with ⟨h1, h2⟩
            exact ⟨h1, fun x hx => ⟨(h2 x hx).1, by simp [(h2 x hx).2]⟩⟩
        · replace hd : isWs d = false := by simpa using hd
          rcases hsp : splitWs (d :: cs') with _ | ⟨u, us⟩
          · exact absurd hsp (splitWs_ne_nil_of_head hd)
          · simp only [hd, Bool.false_eq_true, if_false, hsp, List.mem_cons] at ht
            rcases ht with ht | ht
            · subst ht
              have hu : u ∈ splitWs (d :: cs') := by simp [hsp]
              rcases ih hu with ⟨_, h2⟩
              refine ⟨by simp, ?_⟩
              intro x hx
              rcases List.mem_cons.mp hx with hx | hx
              · subst hx; exact ⟨hc, by simp⟩
              · exact ⟨(h2 x hx).1, by simp [(h2 x hx).2]⟩
            · have hu : t ∈ splitWs (d :: cs') := by simp [hsp, ht]
              rcases ih hu with ⟨h1, h2⟩
              exact ⟨h1, fun x hx => ⟨(h2 x hx).1, by simp [(h2 x hx).2]⟩⟩

/-! ### Lemmas about `strip`, `replaceChar`, `expandParens` and counting -/

theorem isWs_not_paren {c : Char} (h : isWs c = true) : c ≠ '(' ∧ c ≠ ')' := by
  constructor <;> rintro rfl <;> simp [isWs] at h

theorem isWs_quote : isWs '"' = false := by decide

theorem splitWs_dropWhile (l : List Char) :
    splitWs (l.dropWhile isWs) = splitWs l := by
  induction l with
  | nil => rfl
  | cons c cs ih =>
    by_cases hc : isWs c = true
    · rw [List.dropWhile_cons_of_pos hc, ih, splitWs_ws_cons cs hc]
    · rw [List.dropWhile_cons_of_neg hc]

theorem splitWs_strip (l : List Char) : splitWs (strip l) = splitWs l := by
  rw [strip]
  set m := l.dropWhile isWs with hm
  have hdecomp : m = (m.reverse.dropWhile isWs).reverse ++ (m.reverse.takeWhile isWs).reverse := by
    conv_lhs => rw [← List.reverse_reverse m,
      ← List.takeWhile_append_dropWhile isWs m.reverse, List.reverse_append]
  have hws : ∀ c ∈ (m.reverse.takeWhile isWs).reverse, isWs c = true := by
    intro c hc
    exact List.mem_takeWhile_imp (List.mem_reverse.mp hc)
  calc splitWs (m.reverse.dropWhile isWs).reverse
      = splitWs ((m.reverse.dropWhile isWs).reverse ++ (m.reverse.takeWhile isWs).reverse) :=
        (splitWs_append_allws _ hws).symm
    _ = splitWs m := by rw [← hdecomp]
    _ = splitWs l := splitWs_dropWhile l

theorem strip_eq_nil_iff {l : List Char} :
    strip l = [] ↔ ∀ c ∈ l, isWs c = true := by
  constructor
  · intro h c hc
    by_contra hws
    replace hws : isWs c = false := by simpa using hws
    have h2 : splitWs l = [] := by rw [← splitWs_strip, h]; rfl
    have := splitWs_eq_nil_iff.mp h2 c hc
    simp [this] at hws
  · intro h
    rw [strip]
    have h1 : l.dropWhile isWs = [] := List.dropWhile_eq_nil_iff.mpr h
    rw [h1]
    rfl

theorem replaceChar_append (target : Char) (rep : List Char) (a b : List Char) :
    replaceChar target rep (a ++ b) = replaceChar target rep a ++ replaceChar target rep b := by
  induction a with
  | nil => rfl
  | cons c cs ih => simp [replaceChar, ih]

theorem expandParens_eq (l : List Char) : expandParens l = expandFused l := by
  induction l with
  | nil => rfl
  | cons c cs ih =>
    rw [expandParens, replaceChar, replaceChar_append, ← expandParens, ih, expandFused]
    by_cases h1 : c = '('
    · subst h1; rfl
    · by_cases h2 : c = ')'
      · subst h2; simp [replaceChar]
      · simp [h1, h2, replaceChar]

theorem expandFused_append (a b : List Char) :
    expandFused (a ++ b) = expandFused a ++ expandFused b := by
  induction a with
  | nil => rfl
  | cons c cs ih => simp [expandFused, ih]

theorem expandFused_no_paren {l : List Char} (h : ∀ c ∈ l, c ≠ '(' ∧ c ≠ ')') :
    expandFused l = l := by
  induction l with
  | nil => rfl
  | cons c cs ih =>
    have hc := h c (by simp)
    rw [expandFused, ih (fun x hx => h x (by simp [hx]))]
    simp [hc.1, hc.2]

theorem mem_expandFused {c : Char} {l : List Char} (h : c ∈ expandFused l) :
    c ∈ l ∨ c = ' ' := by
  induction l with
  | nil => simp [expandFused] at h
  | cons d cs ih =>
    rw [expandFused, List.mem_append] at h
    rcases h with h | h
    · by_cases h1 : d = '('
      · subst h1
        simp only [if_true] at h
        have hx : c = ' ' ∨ c = '(' ∨ c = ' ' := by simpa using h
        rcases hx with hx | hx | hx
        · exact Or.inr hx
        · rw [hx]; simp
        · exact Or.inr hx
      · by_cases h2 : d = ')'
        · subst h2
          have hx : c = ' ' ∨ c = ')' ∨ c = ' ' := by simpa [h1] using h
          rcases hx with hx | hx | hx
          · exact Or.inr hx
          · rw [hx]; simp
          · exact Or.inr hx
        · simp [h1, h2] at h
          simp [h]
    · rcases ih h with h | h
      · simp [h]
      · simp [h]

/-- Quote count, in a recursion-friendly form; equal to `List.count` by
`countQuote_eq`. -/
def countQuote : List Char → Nat
  | [] => 0
  | c :: cs => (if c = '"' then 1 else 0) + countQuote cs

theorem countQuote_eq (l : List Char) : countQuote l = l.count '"' := by
  induction l with
  | nil => rfl
  | cons c cs ih =>
    rw [countQuote, ih, List.count_cons]
    by_cases hc : c = '"'
    · simp [hc]
      omega
    · simp [hc]

theorem countQuote_append (a b : List Char) :
    countQuote (a ++ b) = countQuote a + countQuote b := by
  induction a with
  | nil => simp [countQuote]
  | cons c cs ih => rw [List.cons_append, countQuote, countQuote, ih]; omega

theorem countQuote_eq_zero {l : List Char} (h : '"' ∉ l) : countQuote l = 0 := by
  rw [countQuote_eq]
  exact List.count_eq_zero.mpr h

theorem countQuote_replaceChar {target : Char} {rep : List Char} (htarget : target ≠ '"')
    (hrep : '"' ∉ rep) (l : List Char) :
    countQuote (replaceChar target rep l) = countQuote l := by
  induction l with
  | nil => rfl
  | cons c cs ih =>
    rw [replaceChar, countQuote_append, ih]
    by_cases hc : c = target
    · have hcq : c ≠ '"' := by rw [hc]; exact htarget
      simp [hc, countQuote_eq_zero hrep, countQuote, hcq, htarget]
    · simp only [hc, if_false]
      simp [countQuote]

theorem countQuote_expandParens (l : List Char) :
    countQuote (expandParens l) = countQuote l := by
  rw [expandParens, countQuote_replaceChar (by decide) (by decide),
    countQuote_replaceChar (by decide) (by decide)]

theorem countQuote_dropWhile_ws (m : List Char) :
    countQuote (m.dropWhile isWs) = countQuote m := by
  conv_rhs => rw [← List.takeWhile_append_dropWhile isWs m]
  rw [countQuote_append]
  have h0 : countQuote (m.takeWhile isWs) = 0 := by
    apply countQuote_eq_zero
    intro hmem
    have := List.mem_takeWhile_imp hmem
    simp [isWs_quote] at this
  omega

theorem countQuote_reverse (l : List Char) : countQuote l.reverse = countQuote l := by
  rw [countQuote_eq, countQuote_eq, List.count_reverse]

theorem countQuote_strip (l : List Char) : countQuote (strip l) = countQuote l := by
  rw [strip, countQuote_reverse, countQuote_dropWhile_ws, countQuote_reverse,
    countQuote_dropWhile_ws]

theorem countQuote_splitWs_sum (l : List Char) :
    ((splitWs l).map countQuote).sum = countQuote l := by
  induction l with
  | nil => rfl
  | cons c cs ih =>
    by_cases hc : isWs c = true
    · have hcq : c ≠ '"' := by rintro rfl; simp [isWs_quote] at hc
      rw [splitWs_ws_cons cs hc, ih, countQuote]
      simp [hcq]
    · replace hc : isWs c = false := by simpa using hc
      cases cs with
      | nil => simp [splitWs, hc, countQuote]
      | cons d cs' =>
        rw [splitWs.eq_3]
        simp only [hc, Bool.false_eq_true, if_false]
        by_cases hd : isWs d = true
        · simp only [hd, if_true, List.map_cons, List.sum_cons, ih]
          simp [countQuote]
        · replace hd : isWs d = false := by simpa using hd
          rcases hsp : splitWs (d :: cs') with _ | ⟨u, us⟩
          · exact absurd hsp (splitWs_ne_nil_of_head hd)
          · rw [hsp] at ih
            simp only [hd, Bool.false_eq_true, if_false, List.map_cons, List.sum_cons] at ih ⊢
            simp only [countQuote] at ih ⊢
            omega

theorem joinTokens_cons_cons (t u : List Char) (ts : List (List Char)) :
    joinTokens (t :: u :: ts) = t ++ ' ' :: joinTokens (u :: ts) := rfl

theorem countQuote_joinTokens (ts : List (List Char)) :
    countQuote (joinTokens ts) = (ts.map countQuote).sum := by
  induction ts with
  | nil => rfl
  | cons t us ih =>
    cases us with
    | nil => simp [joinTokens]
    | cons u us' =>
      rw [joinTokens_cons_cons, countQuote_append, countQuote, ih]
      simp

theorem mem_joinTokens {c : Char} {ts : List (List Char)} (h : c ∈ joinTokens ts) :
    (∃ t ∈ ts, c ∈ t) ∨ c = ' ' := by
  induction ts with
  | nil => simp [joinTokens] at h
  | cons t us ih =>
    cases us with
    | nil => exact Or.inl ⟨t, by simp, h⟩
    | cons u us' =>
      rw [joinTokens_cons_cons, List.mem_append] at h
      rcases h with h | h
      · exact Or.inl ⟨t, by simp, h⟩
      · rcases List.mem_cons.mp h with h | h
        · exact Or.inr h
        · rcases ih h with ⟨v, hv, hcv⟩ | h
          · exact Or.inl ⟨v, by simp [hv], hcv⟩
          · exact Or.inr h

theorem regular_tokeniser_eq (l : List Char) :
    regular_tokeniser l = splitWs (expandFused l) := by
  rw [regular_tokeniser, splitWs_strip, expandParens_eq]

theorem countQuote_regular_join (l : List Char) :
    countQuote (joinTokens (regular_tokeniser l)) = countQuote l := by
  rw [regular_tokeniser_eq, countQuote_joinTokens, countQuote_splitWs_sum,
    ← expandParens_eq, countQuote_expandParens]

theorem regular_tokeniser_mem {l t : List Char} (ht : t ∈ regular_tokeniser l) :
    t ≠ [] ∧ ∀ c ∈ t, isWs c = false ∧ c ∈ l := by
  rw [regular_tokeniser_eq] at ht
  rcases splitWs_mem ht with ⟨h1, h2⟩
  refine ⟨h1, fun c hc => ⟨(h2 c hc).1, ?_⟩⟩
  rcases mem_expandFused (h2 c hc).2 with h | h
  · exact h
  · exfalso
    have := (h2 c hc).1
    rw [h] at this
    simp [isWs] at this

theorem regular_tokeniser_of_allws {l : List Char} (h : ∀ c ∈ l, isWs c = true) :
    regular_tokeniser l = [] := by
  rw [regular_tokeniser_eq, expandFused_no_paren (fun c hc => isWs_not_paren (h c hc))]
  exact splitWs_all_ws h

theorem regular_tokeniser_of_strip_nil {l : List Char} (h : strip l = []) :
    regular_tokeniser l = [] :=
  regular_tokeniser_of_allws (strip_eq_nil_iff.mp h)

theorem mem_expandFused_of_mem {c : Char} {l : List Char} (h : c ∈ l) :
    c ∈ expandFused l := by
  induction l with
  | nil => simp at h
  | cons d cs ih =>
    rw [expandFused, List.mem_append]
    rcases List.mem_cons.mp h with hd | hd
    · subst hd
      left
      by_cases h1 : c = '(' <;> by_cases h2 : c = ')' <;> simp [h1, h2]
    · exact Or.inr (ih hd)

theorem regular_tokeniser_ne_nil {l : List Char} (h : strip l ≠ []) :
    regular_tokeniser l ≠ [] := by
  intro hx
  apply h
  rw [strip_eq_nil_iff]
  intro c hc
  rw [regular_tokeniser_eq] at hx
  exact splitWs_eq_nil_iff.mp hx c (mem_expandFused_of_mem hc)

/-! ### Unfolding lemmas for `tokenise` -/

theorem takeWhile_append_all {p : Char → Bool} {a : List Char} (b : List Char)
    (h : ∀ c ∈ a, p c = true) : (a ++ b).takeWhile p = a ++ b.takeWhile p := by
  induction a with
  | nil => rfl
  | cons c cs ih =>
    rw [List.cons_append, List.takeWhile_cons_of_pos (h c (by simp)), ih (fun x hx => h x (by simp [hx])),
      List.cons_append]

theorem dropWhile_append_all {p : Char → Bool} {a : List Char} (b : List Char)
    (h : ∀ c ∈ a, p c = true) : (a ++ b).dropWhile p = b.dropWhile p := by
  induction a with
  | nil => rfl
  | cons c cs ih =>
    rw [List.cons_append, List.dropWhile_cons_of_pos (h c (by simp)), ih (fun x hx => h x (by simp [hx]))]

theorem contains_of_mem {l : List Char} {c : Char} (h : c ∈ l) : l.contains c = true := by
  simpa [List.contains] using List.elem_iff.mpr h

theorem mem_of_contains {l : List Char} {c : Char} (h : l.contains c = true) : c ∈ l := by
  rw [List.contains] at h
  exact List.elem_iff.mp h

theorem count_eq_countQuote (l : List Char) : l.count '"' = countQuote l :=
  (countQuote_eq l).symm

theorem tokeniseF_congr : ∀ (f1 f2 : Nat) (input : List Char), input.length ≤ f1 →
    input.length ≤ f2 → tokeniseF f1 input = tokeniseF f2 input := by
  intro f1
  induction f1 with
  | zero =>
    intro f2 input h1 _
    have : input = [] := List.length_eq_zero.mp (Nat.le_zero.mp h1)
    subst this
    cases f2 with
    | zero => rfl
    | succ g => simp [tokeniseF]
  | succ f ih =>
    intro f2 input h1 h2
    cases f2 with
    | zero =>
      have : input = [] := List.length_eq_zero.mp (Nat.le_zero.mp h2)
      subst this
      simp [tokeniseF]
    | succ g =>
      rw [tokeniseF, tokeniseF]
      by_cases hnil : input = []
      · simp [hnil]
      · simp only [hnil, if_false]
        by_cases hquote : '"' ∈ input
        · have hcont : input.contains '"' = true := contains_of_mem hquote
          simp only [hcont, not_true, Bool.false_eq_true, if_false]
          by_cases hodd : input.count '"' % 2 ≠ 0
          · simp [hodd]
          · simp only [hodd, if_false]
            rcases hsp1 : input.dropWhile (fun c => c != '"') with _ | ⟨q1, rest1⟩
            · simp only [hsp1]
            · rcases hsp2 : rest1.dropWhile (fun c => c != '"') with _ | ⟨q2, post⟩
              · simp only [hsp1, hsp2]
              · have hlen1 : rest1.length + 1 ≤ input.length := by
                  have := (List.dropWhile_sublist (l := input) (fun c => c != '"')).length_le
                  rw [hsp1] at this
                  simpa using this
                have hlen2 : post.length + 1 ≤ rest1.length := by
                  have := (List.dropWhile_sublist (l := rest1) (fun c => c != '"')).length_le
                  rw [hsp2] at this
                  simpa using this
                have hrec : tokeniseF f post = tokeniseF g post := by
                  apply ih
                  · omega
                  · omega
                simp only [hsp1, hsp2, hrec]
        · have hcont : input.contains '"' = false := by
            by_contra hx
            exact hquote (mem_of_contains (by simpa using hx))
          simp [hcont, hquote]

theorem tokenise_nil : tokenise [] = [] := rfl

theorem length_succ_of_ne_nil {s : List Char} (h : s ≠ []) : ∃ n, s.length = n + 1 := by
  cases s with
  | nil => exact absurd rfl h
  | cons c cs => exact ⟨cs.length, rfl⟩

theorem tokenise_noquote {s : List Char} (h : '"' ∉ s) :
    tokenise s = regular_tokeniser s := by
  by_cases hnil : s = []
  · subst hnil
    rw [tokenise_nil, regular_tokeniser_of_allws]
    intro c hc
    simp at hc
  · obtain ⟨n, hn⟩ := length_succ_of_ne_nil hnil
    have hcont : s.contains '"' = false := by
      by_contra hx
      exact h (mem_of_contains (by simpa using hx))
    rw [tokenise, hn, tokeniseF]
    simp [hnil, hcont, h]

theorem tokenise_odd {s : List Char} (h : countQuote s % 2 = 1) :
    tokenise s = regular_tokeniser s := by
  have hmem : '"' ∈ s := by
    by_contra hx
    rw [countQuote_eq_zero hx] at h
    simp at h
  have hne : s ≠ [] := by rintro rfl; simp at hmem
  obtain ⟨n, hn⟩ := length_succ_of_ne_nil hne
  have hcont : s.contains '"' = true := contains_of_mem hmem
  have hcount : s.count '"' % 2 ≠ 0 := by
    rw [count_eq_countQuote, h]
    omega
  rw [tokenise, hn, tokeniseF]
  simp [hne, hcont, hcount]

theorem tokenise_of_strip_nil {s : List Char} (h : strip s = []) : tokenise s = [] := by
  have hws : ∀ c ∈ s, isWs c = true := strip_eq_nil_iff.mp h
  have hq : '"' ∉ s := by
    intro hx
    have := hws '"' hx
    simp [isWs_quote] at this
  rw [tokenise_noquote hq]
  exact regular_tokeniser_of_allws hws

theorem tokenise_even_guarded {pre mid post : List Char}
    (hpre : '"' ∉ pre) (hmid : '"' ∉ mid) (hpost : countQuote post % 2 = 0) :
    tokenise (pre ++ '"' :: (mid ++ '"' :: post)) =
      (if strip pre ≠ [] then regular_tokeniser pre else [])
        ++ ('"' :: (mid ++ ['"'])) ::
          (if strip post ≠ [] then tokenise post else []) := by
  set s := pre ++ '"' :: (mid ++ '"' :: post) with hs
  have hmem : '"' ∈ s := by simp [hs]
  have hne : s ≠ [] := by rintro hx; rw [hx] at hmem; simp at hmem
  have hcont : s.contains '"' = true := contains_of_mem hmem
  have hcq : countQuote s = 2 + countQuote post := by
    rw [hs, countQuote_append, countQuote_eq_zero hpre, countQuote, countQuote_append,
      countQuote_eq_zero hmid, countQuote]
    simp
    omega
  have hcount : ¬ s.count '"' % 2 ≠ 0 := by
    rw [count_eq_countQuote, hcq]
    omega
  have hprep : ∀ c ∈ pre, (c != '"') = true := by
    intro c hc
    rw [bne_iff_ne]
    rintro rfl
    exact hpre hc
  have hmidp : ∀ c ∈ mid, (c != '"') = true := by
    intro c hc
    rw [bne_iff_ne]
    rintro rfl
    exact hmid hc
  have hsp1 : s.dropWhile (fun c => c != '"') = '"' :: (mid ++ '"' :: post) := by
    rw [hs, dropWhile_append_all _ hprep, List.dropWhile_cons_of_neg (by simp)]
  have htk1 : s.takeWhile (fun c => c != '"') = pre := by
    rw [hs, takeWhile_append_all _ hprep, List.takeWhile_cons_of_neg (by simp), List.append_nil]
  have hsp2 : (mid ++ '"' :: post).dropWhile (fun c => c != '"') = '"' :: post := by
    rw [dropWhile_append_all _ hmidp, List.dropWhile_cons_of_neg (by simp)]
  have htk2 : (mid ++ '"' :: post).takeWhile (fun c => c != '"') = mid := by
    rw [takeWhile_append_all _ hmidp, List.takeWhile_cons_of_neg (by simp), List.append_nil]
  have hlen : post.length + 2 ≤ s.length := by
    rw [hs]
    simp
    omega
  obtain ⟨n, hn⟩ := length_succ_of_ne_nil hne
  rw [tokenise, hn, tokeniseF]
  simp only [hne, if_false, hcont, not_true, Bool.false_eq_true, hcount, hsp1, hsp2, htk1, htk2]
  have hrec : tokeniseF n post = tokenise post := by
    rw [tokenise]
    apply tokeniseF_congr
    · omega
    · omega
  rw [hrec]

theorem tokenise_even {pre mid post : List Char}
    (hpre : '"' ∉ pre) (hmid : '"' ∉ mid) (hpost : countQuote post % 2 = 0) :
    tokenise (pre ++ '"' :: (mid ++ '"' :: post)) =
      regular_tokeniser pre ++ ('"' :: (mid ++ ['"'])) :: tokenise post := by
  rw [tokenise_even_guarded hpre hmid hpost]
  by_cases h1 : strip pre = []
  · rw [regular_tokeniser_of_strip_nil h1]
    simp only [h1, ne_eq, not_true, if_false]
    by_cases h2 : strip post = []
    · rw [tokenise_of_strip_nil h2]
      simp [h2]
    · simp [h2]
  · simp only [ne_eq, h1, not_false_iff, if_true]
    by_cases h2 : strip post = []
    · rw [tokenise_of_strip_nil h2]
      simp [h2]
    · simp [h2]

theorem first_quote_split {s : List Char} (h : '"' ∈ s) :
    ∃ u v, s = u ++ '"' :: v ∧ '"' ∉ u := by
  induction s with
  | nil => simp at h
  | cons c cs ih =>
    by_cases hc : c = '"'
    · exact ⟨[], cs, by simp [hc], by simp⟩
    · have hmem : '"' ∈ cs := by
        rcases List.mem_cons.mp h with h | h
        · exact absurd h.symm hc
        · exact h
      rcases ih hmem with ⟨u, v, huv, hu⟩
      refine ⟨c :: u, v, by simp [huv], ?_⟩
      intro hx
      rcases List.mem_cons.mp hx with hx | hx
      · exact hc hx.symm
      · exact hu hx

theorem even_quote_decomp {s : List Char} (heven : countQuote s % 2 = 0)
    (hne : countQuote s ≠ 0) :
    ∃ pre mid post, s = pre ++ '"' :: (mid ++ '"' :: post) ∧ '"' ∉ pre ∧ '"' ∉ mid ∧
      countQuote post % 2 = 0 := by
  have hmem : '"' ∈ s := by
    by_contra hx
    exact hne (countQuote_eq_zero hx)
  rcases first_quote_split hmem with ⟨pre, rest, hs, hpre⟩
  have hcs : countQuote s = 1 + countQuote rest := by
    rw [hs, countQuote_append, countQuote_eq_zero hpre, countQuote]
    simp
  have hcrest : countQuote rest ≠ 0 := by
    intro hx
    rw [hcs, hx] at heven
    omega
  have hmem2 : '"' ∈ rest := by
    by_contra hx
    exact hcrest (countQuote_eq_zero hx)
  rcases first_quote_split hmem2 with ⟨mid, post, hrest, hmid⟩
  have hcrest2 : countQuote rest = 1 + countQuote post := by
    rw [hrest, countQuote_append, countQuote_eq_zero hmid, countQuote]
    simp
  refine ⟨pre, mid, post, by rw [hs, hrest], hpre, hmid, ?_⟩
  rw [hcs, hcrest2] at heven
  omega

/-! ### Stability of `regular_tokeniser` under re-joining -/

/-- Shape of a token produced by the non-quoted rule: a lone parenthesis
marker or a paren-free fragment. -/
def parenShape (t : List Char) : Prop :=
  t = ['('] ∨ t = [')'] ∨ ('(' ∉ t ∧ ')' ∉ t)

theorem expandFused_open (y : List Char) :
    expandFused ('(' :: y) = ' ' :: '(' :: ' ' :: expandFused y := rfl

theorem expandFused_close (y : List Char) :
    expandFused (')' :: y) = ' ' :: ')' :: ' ' :: expandFused y := rfl

theorem expandFused_other {c : Char} (y : List Char) (h1 : c ≠ '(') (h2 : c ≠ ')') :
    expandFused (c :: y) = c :: expandFused y := by
  rw [expandFused, if_neg h1, if_neg h2, List.singleton_append]

theorem splitWs_paren_block {b : Char} (hb : isWs b = false) (E : List Char) :
    splitWs (b :: ' ' :: E) = [b] :: splitWs E := by
  have := splitWs_token_ws (t := [b]) (d := ' ') E (by simp)
    (by intro x hx; simp at hx; subst hx; exact hb) (by decide)
  simpa using this

theorem splitWs_expandFused_shape :
    ∀ (y pre : List Char), (∀ c ∈ pre, isWs c = false) →
      ('(' ∉ pre ∧ ')' ∉ pre) →
      ∀ t ∈ splitWs (pre ++ expandFused y), parenShape t := by
  intro y
  induction y with
  | nil =>
    intro pre hws hpar t ht
    rw [expandFused, List.append_nil] at ht
    by_cases hpre : pre = []
    · subst hpre; simp [splitWs] at ht
    · rw [splitWs_token_nil hpre hws] at ht
      simp at ht
      subst ht
      exact Or.inr (Or.inr hpar)
  | cons c y' ih =>
    intro pre hws hpar t ht
    by_cases hc1 : c = '('
    · subst hc1
      rw [expandFused_open] at ht
      by_cases hpre : pre = []
      · subst hpre
        rw [List.nil_append, splitWs_ws_cons _ (by decide),
          splitWs_paren_block (by decide)] at ht
        rcases List.mem_cons.mp ht with h | h
        · subst h; exact Or.inl rfl
        · exact ih [] (by simp) (by simp) t (by simpa using h)
      · rw [show pre ++ ' ' :: '(' :: ' ' :: expandFused y' =
          pre ++ ' ' :: ('(' :: ' ' :: expandFused y') from rfl,
          splitWs_token_ws _ hpre hws (by decide),
          splitWs_paren_block (by decide)] at ht
        rcases List.mem_cons.mp ht with h | h
        · subst h; exact Or.inr (Or.inr hpar)
        · rcases List.mem_cons.mp h with h2 | h2
          · subst h2; exact Or.inl rfl
          · exact ih [] (by simp) (by simp) t (by simpa using h2)
    · by_cases hc2 : c = ')'
      · subst hc2
        rw [expandFused_close] at ht
        by_cases hpre : pre = []
        · subst hpre
          rw [List.nil_append, splitWs_ws_cons _ (by decide),
            splitWs_paren_block (by decide)] at ht
          rcases List.mem_cons.mp ht with h | h
          · subst h; exact Or.inr (Or.inl rfl)
          · exact ih [] (by simp) (by simp) t (by simpa using h)
        · rw [show pre ++ ' ' :: ')' :: ' ' :: expandFused y' =
            pre ++ ' ' :: (')' :: ' ' :: expandFused y') from rfl,
            splitWs_token_ws _ hpre hws (by decide),
            splitWs_paren_block (by decide)] at ht
          rcases List.mem_cons.mp ht with h | h
          · subst h; exact Or.inr (Or.inr hpar)
          · rcases List.mem_cons.mp h with h2 | h2
            · subst h2; exact Or.inr (Or.inl rfl)
            · exact ih [] (by simp) (by simp) t (by simpa using h2)
      · rw [expandFused_other y' hc1 hc2] at ht
        by_cases hcw : isWs c = true
        · by_cases hpre : pre = []
          · subst hpre
            rw [List.nil_append, splitWs_ws_cons _ hcw] at ht
            exact ih [] (by simp) (by simp) t (by simpa using ht)
          · rw [splitWs_token_ws _ hpre hws hcw] at ht
            rcases List.mem_cons.mp ht with h | h
            · subst h; exact Or.inr (Or.inr hpar)
            · exact ih [] (by simp) (by simp) t (by simpa using h)
        · replace hcw : isWs c = false := by simpa using hcw
          rw [show pre ++ c :: expandFused y' = (pre ++ [c]) ++ expandFused y' by simp] at ht
          refine ih (pre ++ [c]) ?_ ?_ t ht
          · intro x hx
            rcases List.mem_append.mp hx with h | h
            · exact hws x h
            · simp at h; subst h; exact hcw
          · constructor
            · intro hx
              rcases List.mem_append.mp hx with h | h
              · exact hpar.1 h
              · simp at h; exact hc1 h.symm
            · intro hx
              rcases List.mem_append.mp hx with h | h
              · exact hpar.2 h
              · simp at h; exact hc2 h.symm

theorem regular_tokeniser_shape {l t : List Char} (ht : t ∈ regular_tokeniser l) :
    parenShape t := by
  rw [regular_tokeniser_eq] at ht
  exact splitWs_expandFused_shape l [] (by simp) (by simp) t (by simpa using ht)

theorem joinTokens_append {A C : List (List Char)} (hA : A ≠ []) (hC : C ≠ []) :
    joinTokens (A ++ C) = joinTokens A ++ ' ' :: joinTokens C := by
  induction A with
  | nil => exact absurd rfl hA
  | cons a A' ih =>
    cases A' with
    | nil =>
      cases C with
      | nil => exact absurd rfl hC
      | cons c C' => simp [joinTokens_cons_cons, joinTokens]
    | cons a2 A'' =>
      show joinTokens (a :: (a2 :: (A'' ++ C))) = _
      rw [joinTokens_cons_cons, show (a2 :: (A'' ++ C) : List (List Char)) =
        (a2 :: A'') ++ C from rfl, ih (by simp), joinTokens_cons_cons]
      simp

theorem splitWs_expandFused_join :
    ∀ (ts : List (List Char)),
      (∀ t ∈ ts, t ≠ [] ∧ (∀ c ∈ t, isWs c = false) ∧ parenShape t) →
      splitWs (expandFused (joinTokens ts)) = ts := by
  intro ts
  induction ts with
  | nil => intro _; rfl
  | cons t us ih =>
    intro h
    rcases h t (by simp) with ⟨hne, hws, hshape⟩
    cases us with
    | nil =>
      show splitWs (expandFused (joinTokens [t])) = [t]
      rcases hshape with h1 | h1 | h1
      · subst h1; decide
      · subst h1; decide
      · rw [show joinTokens [t] = t from rfl,
          expandFused_no_paren (fun c hc => ⟨fun hx => h1.1 (hx ▸ hc), fun hx => h1.2 (hx ▸ hc)⟩),
          splitWs_token_nil hne hws]
    | cons u us' =>
      have ihu := ih (fun x hx => h x (by simp [hx]))
      rw [joinTokens_cons_cons, show t ++ ' ' :: joinTokens (u :: us') =
        t ++ [' '] ++ joinTokens (u :: us') by simp,
        expandFused_append, expandFused_append,
        show expandFused [' '] = [' '] from rfl]
      rcases hshape with h1 | h1 | h1
      · subst h1
        rw [show expandFused ['('] = [' ', '(', ' '] from rfl]
        rw [show ([' ', '(', ' '] : List Char) ++ [' '] ++ expandFused (joinTokens (u :: us')) =
          ' ' :: ('(' :: ' ' :: (' ' :: expandFused (joinTokens (u :: us')))) by simp,
          splitWs_ws_cons _ (by decide), splitWs_paren_block (by decide),
          splitWs_ws_cons _ (by decide), ihu]
      · subst h1
        rw [show expandFused [')'] = [' ', ')', ' '] from rfl]
        rw [show ([' ', ')', ' '] : List Char) ++ [' '] ++ expandFused (joinTokens (u :: us')) =
          ' ' :: (')' :: ' ' :: (' ' :: expandFused (joinTokens (u :: us')))) by simp,
          splitWs_ws_cons _ (by decide), splitWs_paren_block (by decide),
          splitWs_ws_cons _ (by decide), ihu]
      · rw [expandFused_no_paren
          (fun c hc => ⟨fun hx => h1.1 (hx ▸ hc), fun hx => h1.2 (hx ▸ hc)⟩)]
        rw [show t ++ [' '] ++ expandFused (joinTokens (u :: us')) =
          t ++ ' ' :: expandFused (joinTokens (u :: us')) by simp,
          splitWs_token_ws _ hne hws (by decide), ihu]

theorem regular_tokeniser_join_stable {ts : List (List Char)}
    (h : ∀ t ∈ ts, t ≠ [] ∧ (∀ c ∈ t, isWs c = false) ∧ parenShape t) :
    regular_tokeniser (joinTokens ts) = ts := by
  rw [regular_tokeniser_eq, splitWs_expandFused_join ts h]

theorem regular_tokeniser_props {l : List Char} :
    ∀ t ∈ regular_tokeniser l, t ≠ [] ∧ (∀ c ∈ t, isWs c = false) ∧ parenShape t := by
  intro t ht
  rcases regular_tokeniser_mem ht with ⟨h1, h2⟩
  exact ⟨h1, fun c hc => (h2 c hc).1, regular_tokeniser_shape ht⟩

theorem regular_tokeniser_restable (l : List Char) :
    regular_tokeniser (joinTokens (regular_tokeniser l)) = regular_tokeniser l :=
  regular_tokeniser_join_stable regular_tokeniser_props

theorem regular_tokeniser_append_ws {w : List Char} (x : List Char)
    (hw : ∀ c ∈ w, isWs c = true) :
    regular_tokeniser (x ++ w) = regular_tokeniser x := by
  rw [regular_tokeniser_eq, regular_tokeniser_eq, expandFused_append,
    expandFused_no_paren (fun c hc => isWs_not_paren (hw c hc)),
    splitWs_append_allws _ hw]

theorem regular_tokeniser_ws_cons {c : Char} (x : List Char) (hc : isWs c = true) :
    regular_tokeniser (c :: x) = regular_tokeniser x := by
  rcases isWs_not_paren hc with ⟨h1, h2⟩
  rw [regular_tokeniser_eq, regular_tokeniser_eq, expandFused_other x h1 h2,
    splitWs_ws_cons _ hc]

/-! ### Idempotence machinery -/

theorem countQuote_ne_zero_of_mem {x : List Char} (h : '"' ∈ x) : countQuote x ≠ 0 := by
  rw [countQuote_eq]
  have := List.count_pos_iff.mpr h
  omega

theorem regular_tokeniser_nil : regular_tokeniser [] = [] := rfl

theorem tokenise_space_cons (x : List Char) : tokenise (' ' :: x) = tokenise x := by
  by_cases hq : '"' ∈ x
  · have hcq : countQuote (' ' :: x) = countQuote x := by simp [countQuote]
    by_cases hodd : countQuote x % 2 = 1
    · rw [tokenise_odd (by rw [hcq]; exact hodd), tokenise_odd hodd,
        regular_tokeniser_ws_cons x (by decide)]
    · have heven : countQuote x % 2 = 0 := by omega
      have hne : countQuote x ≠ 0 := countQuote_ne_zero_of_mem hq
      obtain ⟨pre, mid, post, hxeq, hpre, hmid, hpost⟩ := even_quote_decomp heven hne
      subst hxeq
      have h2 : (' ' :: (pre ++ '"' :: (mid ++ '"' :: post)) : List Char) =
          (' ' :: pre) ++ '"' :: (mid ++ '"' :: post) := rfl
      have hpre2 : '"' ∉ ' ' :: pre := by
        intro hx
        rcases List.mem_cons.mp hx with hx | hx
        · simp at hx
        · exact hpre hx
      rw [h2, tokenise_even hpre2 hmid hpost, tokenise_even hpre hmid hpost,
        regular_tokeniser_ws_cons pre (by decide)]
  · have hq2 : '"' ∉ ' ' :: x := by
      intro hx
      rcases List.mem_cons.mp hx with hx | hx
      · simp at hx
      · exact hq hx
    rw [tokenise_noquote hq2, tokenise_noquote hq, regular_tokeniser_ws_cons x (by decide)]

theorem countQuote_join_tokenise : ∀ (n : Nat) (x : List Char), x.length ≤ n →
    countQuote (joinTokens (tokenise x)) = countQuote x := by
  intro n
  induction n with
  | zero =>
    intro x hx
    have : x = [] := List.length_eq_zero.mp (Nat.le_zero.mp hx)
    subst this
    rfl
  | succ n ih =>
    intro x hx
    by_cases hq : '"' ∈ x
    · by_cases hodd : countQuote x % 2 = 1
      · rw [tokenise_odd hodd]
        exact countQuote_regular_join x
      · have heven : countQuote x % 2 = 0 := by omega
        obtain ⟨pre, mid, post, hxeq, hpre, hmid, hpost⟩ :=
          even_quote_decomp heven (countQuote_ne_zero_of_mem hq)
        subst hxeq
        rw [tokenise_even hpre hmid hpost, countQuote_joinTokens, List.map_append,
          List.map_cons, List.sum_append, List.sum_cons]
        have hA : (List.map countQuote (regular_tokeniser pre)).sum = 0 := by
          rw [← countQuote_joinTokens, countQuote_regular_join, countQuote_eq_zero hpre]
        have hq2 : countQuote ('"' :: (mid ++ ['"'])) = 2 := by
          rw [countQuote, countQuote_append, countQuote_eq_zero hmid, countQuote, countQuote]
          simp
        have hB : (List.map countQuote (tokenise post)).sum = countQuote post := by
          rw [← countQuote_joinTokens]
          apply ih
          simp at hx
          omega
        rw [hA, hq2, hB, countQuote_append, countQuote_eq_zero hpre, countQuote,
          countQuote_append, countQuote_eq_zero hmid, countQuote]
        simp
        omega
    · rw [tokenise_noquote hq]
      exact countQuote_regular_join x

theorem quote_not_mem_join_regular {pre : List Char} (hpre : '"' ∉ pre) :
    '"' ∉ joinTokens (regular_tokeniser pre) := by
  intro hx
  rcases mem_joinTokens hx with ⟨t, ht, hmem⟩ | hsp
  · exact hpre ((regular_tokeniser_mem ht).2 '"' hmem).2
  · simp at hsp

theorem tokenise_idem_aux : ∀ (n : Nat) (x : List Char), x.length ≤ n →
    tokenise (joinTokens (tokenise x)) = tokenise x := by
  intro n
  induction n with
  | zero =>
    intro x hx
    have : x = [] := List.length_eq_zero.mp (Nat.le_zero.mp hx)
    subst this
    rfl
  | succ n ih =>
    intro x hx
    by_cases hq : '"' ∈ x
    · by_cases hodd : countQuote x % 2 = 1
      · rw [tokenise_odd hodd]
        have hcnt : countQuote (joinTokens (regular_tokeniser x)) % 2 = 1 := by
          rw [countQuote_regular_join]
          exact hodd
        rw [tokenise_odd hcnt]
        exact regular_tokeniser_restable x
      · have heven : countQuote x % 2 = 0 := by omega
        obtain ⟨pre, mid, post, hxeq, hpre, hmid, hpost⟩ :=
          even_quote_decomp heven (countQuote_ne_zero_of_mem hq)
        subst hxeq
        have hpostlen : post.length ≤ n := by
          simp at hx
          omega
        have hBidem : tokenise (joinTokens (tokenise post)) = tokenise post :=
          ih post hpostlen
        have hBcount : countQuote (joinTokens (tokenise post)) = countQuote post :=
          countQuote_join_tokenise post.length post le_rfl
        rw [tokenise_even hpre hmid hpost]
        rcases hA : regular_tokeniser pre with _ | ⟨a, A'⟩
        · rcases hB : tokenise post with _ | ⟨b, B'⟩
          · rw [List.nil_append,
              show joinTokens [('"' :: (mid ++ ['"']) : List Char)] = '"' :: (mid ++ ['"'])
                from rfl]
            have heq := @tokenise_even [] mid [] (by simp) hmid (by decide)
            simp only [List.nil_append] at heq
            rw [show ('"' :: (mid ++ ['"']) : List Char) = '"' :: (mid ++ '"' :: []) from rfl,
              heq, regular_tokeniser_nil, tokenise_nil, List.nil_append]
          · rw [hB] at hBidem hBcount
            rw [List.nil_append, joinTokens_cons_cons]
            rw [show ('"' :: (mid ++ ['"']) : List Char) ++ ' ' :: joinTokens (b :: B') =
              '"' :: (mid ++ '"' :: (' ' :: joinTokens (b :: B'))) by simp]
            have hpost2 : countQuote (' ' :: joinTokens (b :: B')) % 2 = 0 := by
              have hsame : countQuote (' ' :: joinTokens (b :: B')) =
                  countQuote (joinTokens (b :: B')) := by
                simp [countQuote]
              rw [hsame, hBcount]
              omega
            have heq := @tokenise_even [] mid (' ' :: joinTokens (b :: B'))
              (by simp) hmid hpost2
            simp only [List.nil_append] at heq
            rw [heq, regular_tokeniser_nil, List.nil_append, tokenise_space_cons, hBidem]
        · have hJA : '"' ∉ joinTokens (a :: A') := by
            have h0 := quote_not_mem_join_regular hpre
            rw [hA] at h0
            exact h0
          have hJAp : '"' ∉ (joinTokens (a :: A')) ++ [' '] := by
            intro hx2
            rcases List.mem_append.mp hx2 with h | h
            · exact hJA h
            · simp at h
          have hregJA : regular_tokeniser (joinTokens (a :: A') ++ [' ']) = a :: A' := by
            rw [regular_tokeniser_append_ws _ (by intro c hc; simp at hc; subst hc; decide)]
            have h0 := regular_tokeniser_restable pre
            rw [hA] at h0
            exact h0
          rcases hB : tokenise post with _ | ⟨b, B'⟩
          · rw [show (a :: A' ++ [('"' :: (mid ++ ['"']) : List Char)] :
                List (List Char)) = (a :: A') ++ [('"' :: (mid ++ ['"']))] from rfl,
              joinTokens_append (by simp) (by simp),
              show joinTokens [('"' :: (mid ++ ['"']) : List Char)] = '"' :: (mid ++ ['"'])
                from rfl]
            rw [show joinTokens (a :: A') ++ ' ' :: ('"' :: (mid ++ ['"'])) =
              (joinTokens (a :: A') ++ [' ']) ++ '"' :: (mid ++ '"' :: []) by simp]
            rw [tokenise_even hJAp hmid (by decide), hregJA, tokenise_nil]
          · rw [hB] at hBidem hBcount
            rw [show (a :: A' ++ (('"' :: (mid ++ ['"']) : List Char)) :: b :: B' :
                List (List Char)) =
              (a :: A') ++ (('"' :: (mid ++ ['"']))) :: b :: B' from rfl,
              joinTokens_append (by simp) (by simp), joinTokens_cons_cons]
            rw [show joinTokens (a :: A') ++ ' ' ::
                (('"' :: (mid ++ ['"'])) ++ ' ' :: joinTokens (b :: B')) =
              (joinTokens (a :: A') ++ [' ']) ++
                '"' :: (mid ++ '"' :: (' ' :: joinTokens (b :: B'))) by simp]
            have hpost2 : countQuote (' ' :: joinTokens (b :: B')) % 2 = 0 := by
              have hsame : countQuote (' ' :: joinTokens (b :: B')) =
                  countQuote (joinTokens (b :: B')) := by
                simp [countQuote]
              rw [hsame, hBcount]
              omega
            rw [tokenise_even hJAp hmid hpost2, hregJA, tokenise_space_cons, hBidem]
    · rw [tokenise_noquote hq]
      have hnq : '"' ∉ joinTokens (regular_tokeniser x) := by
        intro hx2
        rcases mem_joinTokens hx2 with ⟨t, ht, hmem⟩ | hsp
        · exact hq ((regular_tokeniser_mem ht).2 '"' hmem).2
        · simp at hsp
      rw [tokenise_noquote hnq]
      exact regular_tokeniser_restable x

/-! ### Lemmas about the parser -/

theorem parse_expressionF_zero (tokens : List Tok) (position : Nat) :
    parse_expressionF 0 tokens position = none := rfl

theorem parse_listF_zero (tokens : List Tok) (position : Nat) :
    parse_listF 0 tokens position = none := rfl

theorem parse_loopF_zero (tokens : List Tok) (position : Nat) (elements : List Node) :
    parse_loopF 0 tokens position elements = none := rfl

theorem parse_expressionF_succ (fuel : Nat) (tokens : List Tok) (position : Nat) :
    parse_expressionF (fuel + 1) tokens position =
      (if tokens.length ≤ position then some (.error .unexpectedEndOfInput)
       else
         let token := tokens.getD position []
         if token = ['('] then parse_listF fuel tokens position
         else if is_number token then some (parse_number tokens position)
         else some (parse_symbol tokens position)) := rfl

theorem parse_listF_succ (fuel : Nat) (tokens : List Tok) (position : Nat) :
    parse_listF (fuel + 1) tokens position =
      (if tokens.length ≤ position ∨ tokens.getD position [] ≠ ['('] then
        some (.error .expectedOpenParen)
      else
        match parse_loopF fuel tokens (position + 1) [] with
        | none => none
        | some (.error e) => some (.error e)
        | some (.ok (elements, position2)) =>
            some (.ok (list_node elements, position2))) := rfl

theorem parse_loopF_succ (fuel : Nat) (tokens : List Tok) (position : Nat)
    (elements : List Node) :
    parse_loopF (fuel + 1) tokens position elements =
      (match tokens[position]? with
       | none => some (.error .missingClosingParen)
       | some token =>
         if token = [')'] then some (.ok (elements, position + 1))
         else
           match parse_expressionF fuel tokens position with
           | none => none
           | some (.error e) => some (.error e)
           | some (.ok (node, position2)) =>
               parse_loopF fuel tokens position2 (elements ++ [node])) := rfl

theorem parse_bounds : ∀ fuel : Nat,
    (∀ (tokens : List Tok) (position : Nat) (n : Node) (p2 : Nat),
      parse_expressionF fuel tokens position = some (.ok (n, p2)) →
      position < p2 ∧ p2 ≤ tokens.length) ∧
    (∀ (tokens : List Tok) (position : Nat) (n : Node) (p2 : Nat),
      parse_listF fuel tokens position = some (.ok (n, p2)) →
      position < p2 ∧ p2 ≤ tokens.length) ∧
    (∀ (tokens : List Tok) (position : Nat) (els : List Node) (els2 : List Node) (p2 : Nat),
      parse_loopF fuel tokens position els = some (.ok (els2, p2)) →
      position < p2 ∧ p2 ≤ tokens.length) := by
  intro fuel
  induction fuel with
  | zero =>
    refine ⟨?_, ?_, ?_⟩
    · intro tokens position n p2 h
      rw [parse_expressionF_zero] at h
      exact absurd h (by simp)
    · intro tokens position n p2 h
      rw [parse_listF_zero] at h
      exact absurd h (by simp)
    · intro tokens position els els2 p2 h
      rw [parse_loopF_zero] at h
      exact absurd h (by simp)
  | succ fuel ih =>
    obtain ⟨ihE, ihL, ihLoop⟩ := ih
    refine ⟨?_, ?_, ?_⟩
    · intro tokens position n p2 h
      rw [parse_expressionF_succ] at h
      by_cases hend : tokens.length ≤ position
      · simp [hend] at h
      · simp only [hend, if_false] at h
        by_cases hop : tokens.getD position [] = ['(']
        · simp only [hop, if_true] at h
          exact ihL tokens position n p2 h
        · simp only [hop, if_false] at h
          by_cases hnum : is_number (tokens.getD position [])
          · simp only [hnum, if_true] at h
            rw [parse_number, if_neg hend, if_neg (by simpa using hnum)] at h
            simp at h
            omega
          · simp only [hnum, Bool.false_eq_true, if_false] at h
            rw [parse_symbol, if_neg hend] at h
            simp at h
            omega
    · intro tokens position n p2 h
      rw [parse_listF_succ] at h
      by_cases hcond : tokens.length ≤ position ∨ tokens.getD position [] ≠ ['(']
      · rw [if_pos hcond] at h
        simp at h
      · rw [if_neg hcond] at h
        rcases hloop : parse_loopF fuel tokens (position + 1) [] with _ | ⟨e⟩ | ⟨els2, p3⟩
        · rw [hloop] at h; simp at h
        · rw [hloop] at h; simp at h
        · rw [hloop] at h
          simp at h
          rcases ihLoop tokens (position + 1) [] els2 p3 hloop with ⟨h1, h2⟩
          omega
    · intro tokens position els els2 p2 h
      rw [parse_loopF_succ] at h
      rcases htok : tokens[position]? with _ | t
      · rw [htok] at h; simp at h
      · rw [htok] at h
        have hpos : position < tokens.length := (List.getElem?_eq_some.mp htok).1
        by_cases hclose : t = [')']
        · simp only [hclose, if_true] at h
          simp at h
          omega
        · simp only [hclose, if_false] at h
          rcases hE : parse_expressionF fuel tokens position with _ | ⟨e⟩ | ⟨node, p3⟩
          · rw [hE] at h; simp at h
          · rw [hE] at h; simp at h
          · rw [hE] at h
            rcases ihE tokens position node p3 hE with ⟨h1, h2⟩
            rcases ihLoop tokens p3 (els ++ [node]) els2 p2 h with ⟨h3, h4⟩
            omega

theorem parse_errors : ∀ fuel : Nat,
    (∀ (tokens : List Tok) (position : Nat) (e : ParseError),
      parse_expressionF fuel tokens position = some (.error e) →
      (e = .unexpectedEndOfInput ∧ tokens.length ≤ position) ∨
        (e = .missingClosingParen ∧ position < tokens.length)) ∧
    (∀ (tokens : List Tok) (position : Nat) (e : ParseError),
      position < tokens.length → tokens.getD position [] = ['('] →
      parse_listF fuel tokens position = some (.error e) → e = .missingClosingParen) ∧
    (∀ (tokens : List Tok) (position : Nat) (els : List Node) (e : ParseError),
      parse_loopF fuel tokens position els = some (.error e) → e = .missingClosingParen) := by
  intro fuel
  induction fuel with
  | zero =>
    refine ⟨?_, ?_, ?_⟩
    · intro tokens position e h
      rw [parse_expressionF_zero] at h
      exact absurd h (by simp)
    · intro tokens position e _ _ h
      rw [parse_listF_zero] at h
      exact absurd h (by simp)
    · intro tokens position els e h
      rw [parse_loopF_zero] at h
      exact absurd h (by simp)
  | succ fuel ih =>
    obtain ⟨ihE, ihL, ihLoop⟩ := ih
    refine ⟨?_, ?_, ?_⟩
    · intro tokens position e h
      rw [parse_expressionF_succ] at h
      by_cases hend : tokens.length ≤ position
      · rw [if_pos hend] at h
        simp at h
        exact Or.inl ⟨h.symm, hend⟩
      · rw [if_neg hend] at h
        simp only at h
        by_cases hop : tokens.getD position [] = ['(']
        · simp only [hop, if_true] at h
          right
          refine ⟨ihL tokens position e (by omega) hop h, by omega⟩
        · simp only [hop, if_false] at h
          by_cases hnum : is_number (tokens.getD position [])
          · simp only [hnum, if_true] at h
            rw [parse_number, if_neg hend, if_neg (by simpa using hnum)] at h
            simp at h
          · simp only [hnum, Bool.false_eq_true, if_false] at h
            rw [parse_symbol, if_neg hend] at h
            simp at h
    · intro tokens position e hpos hop h
      rw [parse_listF_succ] at h
      rw [if_neg (by push_neg; exact ⟨by omega, hop⟩)] at h
      rcases hloop : parse_loopF fuel tokens (position + 1) [] with _ | ⟨e2⟩ | ⟨els2, p3⟩
      · rw [hloop] at h; simp at h
      · rw [hloop] at h
        simp at h
        rw [← h]
        exact ihLoop tokens (position + 1) [] e2 hloop
      · rw [hloop] at h; simp at h
    · intro tokens position els e h
      rw [parse_loopF_succ] at h
      rcases htok : tokens[position]? with _ | t
      · rw [htok] at h
        simp at h
        exact h.symm
      · rw [htok] at h
        have hpos : position < tokens.length := (List.getElem?_eq_some.mp htok).1
        by_cases hclose : t = [')']
        · simp [hclose] at h
        · simp only [hclose, if_false] at h
          rcases hE : parse_expressionF fuel tokens position with _ | ⟨e2⟩ | ⟨node, p3⟩
          · rw [hE] at h; simp at h
          · rw [hE] at h
            simp at h
            subst h
            rcases ihE tokens position e2 hE with ⟨_, h2⟩ | ⟨h1, _⟩
            · omega
            · exact h1
          · rw [hE] at h
            exact ihLoop tokens p3 (els ++ [node]) e h

theorem parse_isSome : ∀ fuel : Nat,
    (∀ (tokens : List Tok) (position : Nat),
      3 * (tokens.length - position) + 1 ≤ fuel → parse_expressionF fuel tokens position ≠ none) ∧
    (∀ (tokens : List Tok) (position : Nat), position < tokens.length →
      3 * (tokens.length - position) ≤ fuel → parse_listF fuel tokens position ≠ none) ∧
    (∀ (tokens : List Tok) (position : Nat) (els : List Node),
      3 * (tokens.length - position) + 2 ≤ fuel → parse_loopF fuel tokens position els ≠ none) := by
  intro fuel
  induction fuel with
  | zero =>
    refine ⟨?_, ?_, ?_⟩
    · intro tokens position hb
      omega
    · intro tokens position hpos hb
      omega
    · intro tokens position els hb
      omega
  | succ fuel ih =>
    obtain ⟨ihE, ihL, ihLoop⟩ := ih
    refine ⟨?_, ?_, ?_⟩
    · intro tokens position hb
      rw [parse_expressionF_succ]
      by_cases hend : tokens.length ≤ position
      · rw [if_pos hend]
        simp
      · rw [if_neg hend]
        simp only
        by_cases hop : tokens.getD position [] = ['(']
        · simp only [hop, if_true]
          exact ihL tokens position (by omega) (by omega)
        · simp only [hop, if_false]
          by_cases hnum : is_number (tokens.getD position [])
          · rw [if_pos hnum]
            simp
          · rw [if_neg (by simpa using hnum)]
            simp
    · intro tokens position hpos hb
      rw [parse_listF_succ]
      by_cases hcond : tokens.length ≤ position ∨ tokens.getD position [] ≠ ['(']
      · rw [if_pos hcond]
        simp
      · rw [if_neg hcond]
        have hloop := ihLoop tokens (position + 1) [] (by omega)
        rcases hle : parse_loopF fuel tokens (position + 1) [] with _ | ⟨e⟩ | ⟨els2, p3⟩
        · exact absurd hle hloop
        · simp
        · simp
    · intro tokens position els hb
      rw [parse_loopF_succ]
      rcases htok : tokens[position]? with _ | t
      · simp
      · have hpos : position < tokens.length := (List.getElem?_eq_some.mp htok).1
        by_cases hclose : t = [')']
        · simp [hclose]
        · simp only [hclose, if_false]
          have hE := ihE tokens position (by omega)
          rcases hEe : parse_expressionF fuel tokens position with _ | ⟨e⟩ | ⟨node, p3⟩
          · exact absurd hEe hE
          · simp
          · have hbd := ((parse_bounds fuel).1) tokens position node p3 hEe
            exact ihLoop tokens p3 (els ++ [node]) (by omega)

theorem parse_expression_isSome (tokens : List Tok) (position : Nat) :
    parse_expressionF (3 * tokens.length + 1) tokens position ≠ none :=
  (parse_isSome (3 * tokens.length + 1)).1 tokens position (by omega)

theorem parse_expression_eq_of_some {tokens : List Tok} {position : Nat}
    {r : Except ParseError (Node × Nat)}
    (h : parse_expressionF (3 * tokens.length + 1) tokens position = some r) :
    parse_expression tokens position = r := by
  rw [parse_expression, h]
  rfl

theorem parse_listF_ok_shape {fuel : Nat} {tokens : List Tok} {position : Nat}
    {n : Node} {p2 : Nat} (h : parse_listF fuel tokens position = some (.ok (n, p2))) :
    ∃ els, n = Node.list els := by
  cases fuel with
  | zero => rw [parse_listF_zero] at h; exact absurd h (by simp)
  | succ fuel =>
    rw [parse_listF_succ] at h
    by_cases hcond : tokens.length ≤ position ∨ tokens.getD position [] ≠ ['(']
    · rw [if_pos hcond] at h; simp at h
    · rw [if_neg hcond] at h
      rcases hloop : parse_loopF fuel tokens (position + 1) [] with _ | ⟨e⟩ | ⟨els2, p3⟩
      · rw [hloop] at h; simp at h
      · rw [hloop] at h; simp at h
      · rw [hloop] at h
        simp at h
        exact ⟨els2, h.1.symm⟩

theorem parse_expression_ok_number {tokens : List Tok} {position : Nat}
    (h : position < tokens.length) (hn : is_number (tokens.getD position []) = true) :
    parse_expression tokens position =
      .ok (number_node (pyFloat (tokens.getD position [])), position + 1) := by
  have hne : tokens.getD position [] ≠ ['('] := by
    intro hx
    rw [hx] at hn
    exact absurd hn (by decide)
  apply parse_expression_eq_of_some
  rw [parse_expressionF_succ]
  have hend : ¬ tokens.length ≤ position := by omega
  simp only [List.getD_eq_getElem?_getD] at hne hn
  simp [hend, hne, hn, parse_number]

theorem parse_expression_number_inv {tokens : List Tok} {position : Nat} {v : PyFloat}
    {p2 : Nat} (h : parse_expression tokens position = .ok (Node.number v, p2)) :
    is_number (tokens.getD position []) = true := by
  rw [parse_expression] at h
  rcases hopt : parse_expressionF (3 * tokens.length + 1) tokens position with _ | r
  · rw [hopt] at h
    simp at h
  · rw [hopt] at h
    simp at h
    subst h
    rw [parse_expressionF_succ] at hopt
    by_cases hend : tokens.length ≤ position
    · rw [if_pos hend] at hopt
      simp at hopt
    · rw [if_neg hend] at hopt
      simp only at hopt
      by_cases hop : tokens.getD position [] = ['(']
      · rw [if_pos hop] at hopt
        obtain ⟨els, hels⟩ := parse_listF_ok_shape hopt
        simp at hels
      · rw [if_neg hop] at hopt
        by_cases hnum : is_number (tokens.getD position [])
        · exact hnum
        · rw [if_neg (by simpa using hnum)] at hopt
          rw [parse_symbol, if_neg hend] at hopt
          simp [symbol_node] at hopt

theorem parse_expression_eoi (tokens : List Tok) (position : Nat) :
    parse_expression tokens position = .error .unexpectedEndOfInput ↔
      tokens.length ≤ position := by
  constructor
  · intro h
    rcases hopt : parse_expressionF (3 * tokens.length + 1) tokens position with _ | r
    · exact absurd hopt (parse_expression_isSome tokens position)
    · have heq := parse_expression_eq_of_some hopt
      rw [heq] at h
      subst h
      rcases (parse_errors (3 * tokens.length + 1)).1 tokens position _ hopt with
        ⟨_, h2⟩ | ⟨hmcp, _⟩
      · exact h2
      · exact absurd hmcp (by simp)
  · intro h
    apply parse_expression_eq_of_some
    rw [parse_expressionF_succ, if_pos h]

theorem parse_expression_error_classified {tokens : List Tok} {position : Nat}
    {e : ParseError} (h : parse_expression tokens position = .error e) :
    e = .unexpectedEndOfInput ∨ e = .missingClosingParen := by
  rcases hopt : parse_expressionF (3 * tokens.length + 1) tokens position with _ | r
  · rw [parse_expression, hopt] at h
    simp at h
    exact Or.inl h.symm
  · rw [parse_expression, hopt] at h
    simp at h
    subst h
    rcases (parse_errors (3 * tokens.length + 1)).1 tokens position e hopt with
      ⟨h1, _⟩ | ⟨h1, _⟩
    · exact Or.inl h1
    · exact Or.inr h1

theorem parse_expression_ok_bounds {tokens : List Tok} {position : Nat} {n : Node}
    {p2 : Nat} (h : parse_expression tokens position = .ok (n, p2)) :
    position < p2 ∧ p2 ≤ tokens.length := by
  rcases hopt : parse_expressionF (3 * tokens.length + 1) tokens position with _ | r
  · rw [parse_expression, hopt] at h
    simp at h
  · rw [parse_expression, hopt] at h
    simp at h
    subst h
    exact (parse_bounds (3 * tokens.length + 1)).1 tokens position n p2 hopt

/-! ### Soundness of the parser on grammatical token sequences -/

theorem expr_true_shape {ts : List Tok} (h : Expr true ts) :
    ∃ t0 ts', ts = t0 :: ts' ∧ t0 ≠ [')'] := by
  cases h with
  | atom t h1 h2 => exact ⟨t, [], rfl, h2⟩
  | list ts0 h0 => exact ⟨['('], ts0 ++ [[')']], rfl, by decide⟩

/-- Induction motive for `expr_sound`: a single expression parses to exactly
its own token span, and a sequence of expressions drives the list loop up to
the closing parenthesis. -/
def ExprSpec : Bool → List Tok → Prop
  | true, ts => ∀ (fuel : Nat) (tokens pre post : List Tok),
      tokens = pre ++ (ts ++ post) →
      3 * (tokens.length - pre.length) + 1 ≤ fuel →
      ∃ n, parse_expressionF fuel tokens pre.length = some (.ok (n, pre.length + ts.length))
  | false, ts => ∀ (fuel : Nat) (tokens pre post : List Tok) (els : List Node),
      tokens = pre ++ (ts ++ ([[')']] ++ post)) →
      3 * (tokens.length - pre.length) + 2 ≤ fuel →
      ∃ els2, parse_loopF fuel tokens pre.length els =
        some (.ok (els2, pre.length + ts.length + 1))

theorem expr_sound : ∀ {b : Bool} {ts : List Tok}, Expr b ts → ExprSpec b ts := by
  intro b ts h
  induction h with
  | atom t h1 h2 =>
    simp only [ExprSpec]
    intro fuel tokens pre post htokens hbound
    have hlen : tokens.length = pre.length + 1 + post.length := by
      simp [htokens]
      omega
    have hlt : pre.length < tokens.length := by omega
    obtain ⟨f, hf⟩ : ∃ f, fuel = f + 1 := ⟨fuel - 1, by omega⟩
    subst hf
    have htok : tokens[pre.length]? = some t := by
      rw [htokens, List.getElem?_append_right (by omega)]
      simp
    have hgd : tokens.getD pre.length [] = t := by
      rw [List.getD_eq_getElem?_getD, htok]
      rfl
    rw [parse_expressionF_succ, if_neg (by omega)]
    simp only [hgd, h1, if_false]
    by_cases hnum : is_number t
    · rw [if_pos hnum, parse_number, if_neg (by omega), hgd, if_neg (by simpa using hnum)]
      exact ⟨number_node (pyFloat t), by simp⟩
    · rw [if_neg (by simpa using hnum), parse_symbol, if_neg (by omega), hgd]
      exact ⟨symbol_node t, by simp⟩
  | list ts0 h0 ih =>
    simp only [ExprSpec] at ih ⊢
    intro fuel tokens pre post htokens hbound
    have hlen : tokens.length = pre.length + ts0.length + 2 + post.length := by
      simp [htokens]
      omega
    have hlt : pre.length < tokens.length := by omega
    obtain ⟨f, hf⟩ : ∃ f, fuel = f + 1 := ⟨fuel - 1, by omega⟩
    subst hf
    obtain ⟨g, hg⟩ : ∃ g, f = g + 1 := ⟨f - 1, by omega⟩
    subst hg
    have htok : tokens[pre.length]? = some ['('] := by
      rw [htokens, List.getElem?_append_right (by omega)]
      simp
    have hgd : tokens.getD pre.length [] = ['('] := by
      rw [List.getD_eq_getElem?_getD, htok]
      rfl
    have htokens2 : tokens = (pre ++ [['(']]) ++ (ts0 ++ ([[')']] ++ post)) := by
      rw [htokens]
      simp
    have hcall := ih g tokens (pre ++ [['(']]) post []
      (by rw [htokens2]) (by simp; omega)
    obtain ⟨els2, hloop⟩ := hcall
    refine ⟨list_node els2, ?_⟩
    have hplen : (pre ++ [['(']]).length = pre.length + 1 := by simp
    rw [hplen] at hloop
    have harith : pre.length + (['('] :: ts0 ++ [[')']]).length =
        pre.length + 1 + ts0.length + 1 := by
      simp
      omega
    rw [parse_expressionF_succ, if_neg (by omega), harith]
    simp only [hgd, if_true]
    rw [parse_listF_succ, if_neg (by push_neg; exact ⟨by omega, hgd⟩)]
    simp only [hloop]
  | nil =>
    simp only [ExprSpec]
    intro fuel tokens pre post els htokens hbound
    have hlt : pre.length < tokens.length := by
      simp [htokens]
    obtain ⟨f, hf⟩ : ∃ f, fuel = f + 1 := ⟨fuel - 1, by omega⟩
    subst hf
    have htok : tokens[pre.length]? = some [')'] := by
      rw [htokens, List.getElem?_append_right (by omega)]
      simp
    refine ⟨els, ?_⟩
    rw [parse_loopF_succ, htok]
    simp
  | cons ts us h1 h2 ih1 ih2 =>
    simp only [ExprSpec] at ih1 ih2 ⊢
    intro fuel tokens pre post els htokens hbound
    obtain ⟨t0, ts', hts, ht0⟩ := expr_true_shape h1
    have htsne : 1 ≤ ts.length := by
      rw [hts]
      simp
    have hlen : tokens.length = pre.length + ts.length + us.length + 1 + post.length := by
      simp [htokens]
      omega
    obtain ⟨g, hg⟩ : ∃ g, fuel = g + 1 := ⟨fuel - 1, by omega⟩
    subst hg
    have htok : tokens[pre.length]? = some t0 := by
      rw [htokens, List.getElem?_append_right (by omega)]
      rw [hts]
      simp
    have hE := ih1 g tokens pre (us ++ ([[')']] ++ post)) (by rw [htokens]; simp)
      (by omega)
    obtain ⟨n, hn⟩ := hE
    have hloop := ih2 g tokens (pre ++ ts) post (els ++ [n])
      (by rw [htokens]; simp) (by simp; omega)
    obtain ⟨els2, hl⟩ := hloop
    have hplen : (pre ++ ts).length = pre.length + ts.length := by simp
    rw [hplen] at hl
    refine ⟨els2, ?_⟩
    have harith : pre.length + (ts ++ us).length + 1 =
        pre.length + ts.length + us.length + 1 := by
      simp
      omega
    rw [parse_loopF_succ, htok, harith]
    simp only [ht0, if_false, hn, hl]

/-! ### The claims -/

/-- Claim C1: for every input string whose tokenisation forms a single complete
top-level expression (with balanced parentheses, captured by the grammar
`Expr true`), `parse_expression` applied to `tokenise input` at position 0
succeeds and returns a next position equal to the length of the token
sequence, consuming every token exactly once. -/
theorem claim_C1_roundtrip (s : List Char) (h : Expr true (tokenise s)) :
    ∃ n, parse_expression (tokenise s) 0 = .ok (n, (tokenise s).length) := by
  have hspec := expr_sound h
  simp only [ExprSpec] at hspec
  obtain ⟨n, hn⟩ := hspec (3 * (tokenise s).length + 1) (tokenise s) [] []
    (by simp) (by simp)
  simp only [List.length_nil, Nat.zero_add] at hn
  exact ⟨n, parse_expression_eq_of_some hn⟩

/-- Witness for C1 at the input `(+ 1 2)`. -/
theorem claim_C1_roundtrip_witness :
    Expr true (tokenise ['(', '+', ' ', '1', ' ', '2', ')']) ∧
    ∃ n, parse_expression (tokenise ['(', '+', ' ', '1', ' ', '2', ')']) 0 =
      .ok (n, (tokenise ['(', '+', ' ', '1', ' ', '2', ')']).length) := by
  have htok : tokenise ['(', '+', ' ', '1', ' ', '2', ')'] =
      [['('], ['+'], ['1'], ['2'], [')']] := by decide
  have h1 : Expr true [['+']] := Expr.atom ['+'] (by decide) (by decide)
  have h2 : Expr true [['1']] := Expr.atom ['1'] (by decide) (by decide)
  have h3 : Expr true [['2']] := Expr.atom ['2'] (by decide) (by decide)
  have hseq : Expr false [['+'], ['1'], ['2']] :=
    Expr.cons _ _ h1 (Expr.cons _ _ h2 (Expr.cons _ _ h3 Expr.nil))
  have hg : Expr true [['('], ['+'], ['1'], ['2'], [')']] := Expr.list _ hseq
  have hg2 : Expr true (tokenise ['(', '+', ' ', '1', ' ', '2', ')']) := by
    rw [htok]
    exact hg
  exact ⟨hg2, claim_C1_roundtrip _ hg2⟩

/-- Claim C2: for every input with an even, nonzero number of double quotes,
`tokenise` returns the non-quoted-rule tokens of the text before the first
quote, then the substring from the first to the second quote inclusive as one
verbatim token, then the recursive tokenisation of the text after the second
quote, concatenated in that order. -/
theorem claim_C2_quoted_pair (s : List Char) (heven : s.count '"' % 2 = 0)
    (hne : s.count '"' ≠ 0) :
    ∃ pre mid post, s = pre ++ '"' :: (mid ++ '"' :: post) ∧ '"' ∉ pre ∧ '"' ∉ mid ∧
      tokenise s = regular_tokeniser pre ++ ('"' :: (mid ++ ['"'])) :: tokenise post := by
  rw [count_eq_countQuote] at heven hne
  obtain ⟨pre, mid, post, hs, hpre, hmid, hpost⟩ := even_quote_decomp heven hne
  refine ⟨pre, mid, post, hs, hpre, hmid, ?_⟩
  rw [hs]
  exact tokenise_even hpre hmid hpost

/-- Witness for C2 at the input `a"b ("c`. -/
theorem claim_C2_quoted_pair_witness :
    (['a', '"', 'b', ' ', '(', '"', 'c'] : List Char).count '"' % 2 = 0 ∧
    (['a', '"', 'b', ' ', '(', '"', 'c'] : List Char).count '"' ≠ 0 ∧
    ∃ pre mid post, (['a', '"', 'b', ' ', '(', '"', 'c'] : List Char) =
        pre ++ '"' :: (mid ++ '"' :: post) ∧ '"' ∉ pre ∧ '"' ∉ mid ∧
      tokenise ['a', '"', 'b', ' ', '(', '"', 'c'] =
        regular_tokeniser pre ++ ('"' :: (mid ++ ['"'])) :: tokenise post :=
  ⟨by decide, by decide, claim_C2_quoted_pair _ (by decide) (by decide)⟩

/-- Claim C3: at an in-range position, `parse_expression` returns a `Number`
node whose value is the host float conversion of the token, advancing by one,
exactly when the token passes the numeric test; and the numeric test rejects
`+`, `abc`, the empty token, and accepts `42`, `-42`, `3.14`. -/
theorem claim_C3_number_dispatch (tokens : List Tok) (position : Nat)
    (h : position < tokens.length) :
    (((∃ v p2, parse_expression tokens position = .ok (Node.number v, p2)) ↔
        is_number (tokens.getD position []) = true)
     ∧ (is_number (tokens.getD position []) = true →
        ∃ v, pyFloatParse (tokens.getD position []) = some v ∧
          parse_expression tokens position = .ok (Node.number v, position + 1)))
    ∧ is_number ['+'] = false ∧ is_number ['a', 'b', 'c'] = false ∧ is_number [] = false
    ∧ is_number ['4', '2'] = true ∧ is_number ['-', '4', '2'] = true
    ∧ is_number ['3', '.', '1', '4'] = true := by
  refine ⟨⟨⟨?_, ?_⟩, ?_⟩, by decide, by decide, by decide, by decide, by decide, by decide⟩
  · rintro ⟨v, p2, hok⟩
    exact parse_expression_number_inv hok
  · intro hn
    exact ⟨pyFloat (tokens.getD position []), position + 1, parse_expression_ok_number h hn⟩
  · intro hn
    obtain ⟨v, hv⟩ := Option.isSome_iff_exists.mp (by rwa [is_number] at hn)
    refine ⟨v, hv, ?_⟩
    have hok := parse_expression_ok_number h hn
    rw [hok, number_node, pyFloat, hv]
    rfl

/-- Witness for C3 at the token list `["42"]`. -/
theorem claim_C3_number_dispatch_witness :
    0 < ([['4', '2']] : List Tok).length ∧
    ((((∃ v p2, parse_expression [['4', '2']] 0 = .ok (Node.number v, p2)) ↔
        is_number (([['4', '2']] : List Tok).getD 0 []) = true)
     ∧ (is_number (([['4', '2']] : List Tok).getD 0 []) = true →
        ∃ v, pyFloatParse (([['4', '2']] : List Tok).getD 0 []) = some v ∧
          parse_expression [['4', '2']] 0 = .ok (Node.number v, 0 + 1)))
    ∧ is_number ['+'] = false ∧ is_number ['a', 'b', 'c'] = false ∧ is_number [] = false
    ∧ is_number ['4', '2'] = true ∧ is_number ['-', '4', '2'] = true
    ∧ is_number ['3', '.', '1', '4'] = true) :=
  ⟨by decide, claim_C3_number_dispatch [['4', '2']] 0 (by decide)⟩

/-- Claim C4: `parse_expression` fails with `UnexpectedEndOfInput` exactly when
the position is at or beyond the end of the token sequence (in particular on
the empty sequence), and list parsing fails with `MissingClosingParen` exactly
when the tokens run out inside an open list (in particular on `["("]`, and the
list-parsing loop raises it whenever the position has run past the end). -/
theorem claim_C4_errors :
    (∀ (tokens : List Tok) (position : Nat),
      parse_expression tokens position = .error .unexpectedEndOfInput ↔
        tokens.length ≤ position)
    ∧ parse_expression ([] : List Tok) 0 = .error .unexpectedEndOfInput
    ∧ parse_expression [['(']] 0 = .error .missingClosingParen
    ∧ (∀ (fuel : Nat) (tokens : List Tok) (position : Nat) (elements : List Node),
        tokens.length ≤ position →
        parse_loopF (fuel + 1) tokens position elements =
          some (.error .missingClosingParen)) := by
  refine ⟨parse_expression_eoi, by rfl, by rfl, ?_⟩
  intro fuel tokens position elements h
  rw [parse_loopF_succ, List.getElem?_eq_none h]

/-- Witness for C4 on the empty token sequence and an exhausted loop. -/
theorem claim_C4_errors_witness :
    (parse_expression ([] : List Tok) 0 = .error .unexpectedEndOfInput ↔
      ([] : List Tok).length ≤ 0) ∧
    parse_loopF 1 ([['(']] : List Tok) 1 [] = some (.error .missingClosingParen) :=
  ⟨claim_C4_errors.1 [] 0, claim_C4_errors.2.2.2 0 [['(']] 1 [] (by decide)⟩

/-- Claim C5: joining the token sequence produced by `tokenise` with single
spaces and tokenising the result reproduces the same token sequence. -/
theorem claim_C5_idempotent (s : List Char) :
    tokenise (joinTokens (tokenise s)) = tokenise s :=
  tokenise_idem_aux s.length s le_rfl

/-- Claim C6: for every input with an odd number of double quotes, `tokenise`
returns exactly the non-quoted rule applied to the whole input, treating the
quote characters as ordinary text (and, being a total function, raises no
error). -/
theorem claim_C6_odd_quotes (s : List Char) (h : s.count '"' % 2 = 1) :
    tokenise s = regular_tokeniser s := by
  rw [count_eq_countQuote] at h
  exact tokenise_odd h

/-- Witness for C6 at the input `"a`. -/
theorem claim_C6_odd_quotes_witness :
    (['"', 'a'] : List Char).count '"' % 2 = 1 ∧
    tokenise ['"', 'a'] = regular_tokeniser ['"', 'a'] :=
  ⟨by decide, claim_C6_odd_quotes _ (by decide)⟩

/-- Claim C7: `tokenise` is a total function (it terminates and returns a
token sequence on every input), and on every input made only of whitespace
characters (space, tab, newline, carriage return, and the other ASCII
whitespace), including the empty input, it returns the empty sequence. -/
theorem claim_C7_whitespace (s : List Char) (h : ∀ c ∈ s, isWs c = true) :
    tokenise s = [] :=
  tokenise_of_strip_nil (strip_eq_nil_iff.mpr h)

/-- Witness for C7 at a mixed-whitespace input. -/
theorem claim_C7_whitespace_witness :
    (∀ c ∈ ([' ', '\t', '\n', '\r'] : List Char), isWs c = true) ∧
    tokenise [' ', '\t', '\n', '\r'] = [] :=
  ⟨by decide, claim_C7_whitespace _ (by decide)⟩

/-- Claim C8: every failure of `parse_expression` is `UnexpectedEndOfInput` or
`MissingClosingParen`; `ExpectedOpenParen` (and the other internal errors) are
never raised through `parse_expression`. -/
theorem claim_C8_error_taxonomy (tokens : List Tok) (position : Nat) (e : ParseError)
    (h : parse_expression tokens position = .error e) :
    e = .unexpectedEndOfInput ∨ e = .missingClosingParen :=
  parse_expression_error_classified h

/-- Witness for C8 at the token list `["("]`. -/
theorem claim_C8_error_taxonomy_witness :
    ParseError.missingClosingParen = ParseError.unexpectedEndOfInput ∨
      ParseError.missingClosingParen = ParseError.missingClosingParen :=
  claim_C8_error_taxonomy [['(']] 0 .missingClosingParen (by rfl)

/-- Claim C9: every successful `parse_expression` consumes at least one token
and never claims tokens past the end of the sequence. -/
theorem claim_C9_progress (tokens : List Tok) (position : Nat) (n : Node) (p2 : Nat)
    (h : parse_expression tokens position = .ok (n, p2)) :
    position < p2 ∧ p2 ≤ tokens.length :=
  parse_expression_ok_bounds h

/-- Witness for C9 at the token list `["x"]`. -/
theorem claim_C9_progress_witness :
    0 < 1 ∧ 1 ≤ ([['x']] : List Tok).length :=
  claim_C9_progress [['x']] 0 (Node.symbol ['x']) 1 (by rfl)

/-- Claim C10: the numeric test accepts tokens that are not optionally-signed
decimal literals, such as `inf`, `nan` and `1e5`, and `parse_expression` turns
each of them into a `Number` node rather than a `Symbol` node. -/
theorem claim_C10_beyond_decimal :
    (optSignedDecimal ['i', 'n', 'f'] = false ∧ is_number ['i', 'n', 'f'] = true ∧
      ∃ v, parse_expression [['i', 'n', 'f']] 0 = .ok (Node.number v, 1))
    ∧ (optSignedDecimal ['n', 'a', 'n'] = false ∧ is_number ['n', 'a', 'n'] = true ∧
      ∃ v, parse_expression [['n', 'a', 'n']] 0 = .ok (Node.number v, 1))
    ∧ (optSignedDecimal ['1', 'e', '5'] = false ∧ is_number ['1', 'e', '5'] = true ∧
      ∃ v, parse_expression [['1', 'e', '5']] 0 = .ok (Node.number v, 1)) := by
  refine ⟨⟨by decide, by decide, ?_⟩, ⟨by decide, by decide, ?_⟩,
    ⟨by decide, by decide, ?_⟩⟩
  · exact ⟨pyFloat ['i', 'n', 'f'], parse_expression_ok_number (by decide) (by decide)⟩
  · exact ⟨pyFloat ['n', 'a', 'n'], parse_expression_ok_number (by decide) (by decide)⟩
  · exact ⟨pyFloat ['1', 'e', '5'], parse_expression_ok_number (by decide) (by decide)⟩
